import Mathlib

set_option linter.unusedVariables false

/-!
Shallow embedding of the column-pruning physical optimizer
(`datafusion/core/src/physical_optimizer/optimize_projections.rs`).

Each definition below mirrors one item of the source file: the `Column`
value type, the `ProjectionOptimizer` tree node, and the rewrite
subroutines cited by the claims (`try_remove_projection`,
`try_narrow_projection`, `try_projected_csv`, `try_unifying_projections`,
`caching_projections`, `insert_projection` and its union / single-child
variants, `try_insert_below_global_limit`, `try_insert_below_local_limit`,
and the join-filter column-index rewrite shared by `rewrite_hash_join`,
`rewrite_nested_loop_join` and `rewrite_sort_merge_join`).

Modeling conventions, applied uniformly:
* `HashSet<Column>` and `HashMap<Column, Column>` become `List Column` and
  `List (Column × Column)` read with set / first-match semantics; the
  theorems proved about them are iteration-order independent.
* `Result<T>` / `Transformed<T>` become `Option T`: `none` is
  `Transformed::No` (or an impossible-shape panic path), `some` is
  `Transformed::Yes`.  Rust `unwrap`s of downcasts that callers guarantee
  (for example indexing `projection_columns[col.index()]`) are modeled
  with `getD` and a placeholder default; every theorem that depends on
  such an access carries the in-range hypothesis the caller establishes.
* `ExecutionPlan` is restricted to the operator shapes the claims quantify
  over: a CSV source carrying its column-selection list, a projection,
  the two limit operators, and a union.  Operator fields the optimizer
  never reads (header flag, delimiter, batch sizes) are omitted.
-/

/-- Arrow data types, restricted to a few representatives; the optimizer
only moves fields around and never inspects the type beyond copying it. -/
inductive DataType where
  | int64
  | float64
  | utf8
  | boolean
deriving DecidableEq

/-- One named, typed field of an operator's output schema
(`arrow_schema::Field`, restricted to the two parts the optimizer reads). -/
structure SchemaField where
  name : String
  dtype : DataType
deriving DecidableEq

/-- Mirror of `datafusion_physical_expr::expressions::Column`: a (name, ordinal
index) reference to one field of an operator's output schema.  Two column
references are equal iff both fields match. -/
structure Column where
  name : String
  index : Nat
deriving DecidableEq

/-- Physical expressions, restricted to the three shapes the optimizer
distinguishes: a bare column reference (`Column`), a constant (`Literal`,
abstracted to its result type), and a compound expression (`BinaryExpr`,
standing for every non-trivial expression). -/
inductive PhysicalExpr where
  | column (c : Column)
  | literal (dtype : DataType)
  | binary (op : String) (lhs : PhysicalExpr) (rhs : PhysicalExpr)
deriving DecidableEq

/-- Mirror of `datafusion_common::JoinSide`. -/
inductive JoinSide where
  | left
  | right
deriving DecidableEq

/-- Mirror of `datafusion_physical_plan::joins::utils::ColumnIndex`: one entry of a
join filter's column-index table, naming an input column by side-local
index and side tag. -/
structure ColumnIndex where
  index : Nat
  side : JoinSide
deriving DecidableEq

/-- The physical-plan fragment the claims quantify over.  `csv` mirrors
`CsvExec` with its `FileScanConfig.projection` column-selection list;
`projection` mirrors `ProjectionExec` (expression, alias) pairs;
`globalLimit` / `localLimit` mirror `GlobalLimitExec` / `LocalLimitExec`;
`union` mirrors `UnionExec` (first child split off so the schema is a
structural recursion). -/
inductive Plan where
  | csv (fileSchema : List SchemaField) (projection : Option (List Nat))
  | projection (exprs : List (PhysicalExpr × String)) (input : Plan)
  | globalLimit (skip : Nat) (fetch : Option Nat) (input : Plan)
  | localLimit (fetch : Nat) (input : Plan)
  | union (first : Plan) (rest : List Plan)

/-- The column behind an expression known to be a bare column reference
(the source writes `expr.as_any().downcast_ref::<Column>().unwrap()`; the
placeholder is unreachable at every call site, which checks
`all_alias_free_columns` or builds the expression as a column first). -/
def exprColumn : PhysicalExpr → Column
  | .column c => c
  | _ => ⟨ "", 0⟩

/-- Result type of an expression against an input schema (the part of
`PhysicalExpr::data_type` the embedding needs to compute projection
schemas; a compound expression is abstracted to its left operand's type,
which no claim depends on). -/
def exprDataType (e : PhysicalExpr) (inputSchema : List SchemaField) : DataType :=
  match e with
  | .column c => (inputSchema.getD c.index ⟨ "", DataType.int64⟩).dtype
  | .literal dt => dt
  | .binary _ lhs _ => exprDataType lhs inputSchema

/-- Output schema of a plan, as `ExecutionPlan::schema` computes it: a CSV
source applies its column-selection list to the file schema, a projection
builds one field per (expression, alias) pair, limits and unions pass the
(first) input schema through. -/
def Plan.schema : Plan → List SchemaField
  | .csv fileSchema proj =>
      match proj with
      | some idxs => idxs.map fun i => fileSchema.getD i ⟨ "", DataType.int64⟩
      | none => fileSchema
  | .projection exprs input =>
      exprs.map fun p => ⟨p.2, exprDataType p.1 input.schema⟩
  | .globalLimit _ _ input => input.schema
  | .localLimit _ input => input.schema
  | .union first _ => first.schema

/-- Children of a plan node (`ExecutionPlan::children`). -/
def Plan.children : Plan → List Plan
  | .csv _ _ => []
  | .projection _ input => [input]
  | .globalLimit _ _ input => [input]
  | .localLimit _ input => [input]
  | .union first rest => first :: rest

/-- The rule's tree node (`struct ProjectionOptimizer`): the wrapped plan,
the columns ancestors require from it, the schema mapping its own rewrite
produced, and the child nodes. -/
inductive ProjectionOptimizer where
  | mk (plan : Plan) (required_columns : List Column)
      (schema_mapping : List (Column × Column))
      (children_nodes : List ProjectionOptimizer)

def ProjectionOptimizer.plan : ProjectionOptimizer → Plan
  | .mk p _ _ _ => p

def ProjectionOptimizer.required_columns : ProjectionOptimizer → List Column
  | .mk _ r _ _ => r

def ProjectionOptimizer.schema_mapping : ProjectionOptimizer → List (Column × Column)
  | .mk _ _ m _ => m

def ProjectionOptimizer.children_nodes : ProjectionOptimizer → List ProjectionOptimizer
  | .mk _ _ _ c => c

/-- Every column occurrence inside an expression, with multiplicity, in
visit order — the accumulation `caching_projections` performs with
`expr.apply` when it fills `column_ref_map`. -/
def column_occurrences : PhysicalExpr → List Column
  | .column c => [c]
  | .literal _ => []
  | .binary _ lhs rhs => column_occurrences lhs ++ column_occurrences rhs

/-- Mirror of `collect_columns`: the set of columns referenced by an expression
(`HashSet<Column>` in the source, hence deduplicated). -/
def collect_columns (e : PhysicalExpr) : List Column :=
  (column_occurrences e).dedup

/-- Mirror of `collect_columns_in_plan_schema`: all fields of a plan's schema in
`Column` form, one per (name, position) pair. -/
def collect_columns_in_plan_schema (p : Plan) : List Column :=
  p.schema.enum.map fun pr => ⟨pr.2.name, pr.1⟩

/-- Mirror of `is_expr_trivial`: an expression is trivial iff it is a bare `Column`
or a `Literal`. -/
def is_expr_trivial : PhysicalExpr → Bool
  | .column _ => true
  | .literal _ => true
  | .binary _ _ _ => false

/-- Mirror of `caching_projections`: counts, over all parent-projection expressions,
how often each column is referenced, and trips when some column is
referenced more than once while the child projection's expression at that
column's index is not trivial.  (The source indexes
`child_projection.expr()[column.index()]`, which panics out of range; an
out-of-range `getD` here selects a trivial placeholder, and every claim
instantiates an in-range column.) -/
def caching_projections (parentExprs childExprs : List (PhysicalExpr × String)) : Bool :=
  let refs := (parentExprs.map Prod.fst).flatMap column_occurrences
  refs.any fun c =>
    decide (1 < refs.count c) &&
      !(is_expr_trivial (childExprs.getD c.index (PhysicalExpr.literal DataType.int64, "")).1)

/-- Mirror of `all_alias_free_columns`: every expression is a bare `Column` whose
alias equals the column's own name. -/
def all_alias_free_columns (exprs : List (PhysicalExpr × String)) : Bool :=
  exprs.all fun p =>
    match p.1 with
    | .column c => c.name == p.2
    | _ => false

/-- Mirror of `new_projections_for_columns`: rewrites a source's column-selection
list through a projection's (all-column) expressions.  Note the
`filter_map` over `source.as_ref().map(...)`: when the source carries no
pre-existing selection list the result is empty. -/
def new_projections_for_columns (projection : List Column)
    (source : Option (List Nat)) : List Nat :=
  projection.filterMap fun col => source.map fun proj => proj.getD col.index 0

/-- Whether an expression contains at least one column reference; the
`RewriteState` of `update_expr` ends `Unchanged` exactly when it does not. -/
def expr_has_column : PhysicalExpr → Bool
  | .column _ => true
  | .literal _ => false
  | .binary _ lhs rhs => expr_has_column lhs || expr_has_column rhs

/-- One-shot substitution of every column reference by the child
projection's expression at that index — the `transform_up_mut` body of
`update_expr` in `sync_with_child = true` mode (post-order, so a
substituted subtree is not revisited). -/
def substitute_columns (projectedExprs : List (PhysicalExpr × String)) :
    PhysicalExpr → PhysicalExpr
  | .column c => (projectedExprs.getD c.index (PhysicalExpr.literal DataType.int64, "")).1
  | .literal dt => .literal dt
  | .binary op lhs rhs =>
      .binary op (substitute_columns projectedExprs lhs)
        (substitute_columns projectedExprs rhs)

/-- Mirror of `update_expr` with `sync_with_child = true`: substitutes child
expressions for columns, and yields `none` when the expression holds no
column at all (the rewrite state stays `Unchanged`). -/
def update_expr_sync (e : PhysicalExpr)
    (projectedExprs : List (PhysicalExpr × String)) : Option PhysicalExpr :=
  if expr_has_column e then some (substitute_columns projectedExprs e) else none

/-- First-match lookup in a schema mapping (`HashMap::get`). -/
def mapping_get (m : List (Column × Column)) (c : Column) : Option Column :=
  (m.find? fun pr => pr.1 == c).map fun pr => pr.2

/-- Mirror of `try_unifying_projections`: if the input of a projection is itself a
projection, substitute the child's expressions into the parent's, unless
the `caching_projections` guard trips or some parent expression holds no
column (in which case `update_expr` reports no rewrite); `none` is
`Transformed::No`. -/
def try_unifying_projections : ProjectionOptimizer → Option ProjectionOptimizer
  | .mk plan required mapping children =>
    match plan with
    | .projection parentExprs (.projection childExprs grandInput) =>
      if caching_projections parentExprs childExprs then none
      else
        match parentExprs.mapM
            (fun p => (update_expr_sync p.1 childExprs).map fun e => (e, p.2)) with
        | none => none
        | some newExprs =>
            some (.mk (.projection newExprs grandInput) required mapping
              (match children with
               | child :: _ => child.children_nodes
               | [] => []))
    | _ => none

/-- Mirror of `try_remove_projection`: drops a projection when (1) every expression
is a bare, unaliased column and (2) the projection's own requirements,
translated through the projection, already cover every column of the
input's schema; the recorded mapping keeps one entry per required column
whose translated identity differs. -/
def try_remove_projection : ProjectionOptimizer → Option ProjectionOptimizer
  | .mk plan required mapping children =>
    match plan, children with
    | .projection exprs input, child :: _ =>
      if all_alias_free_columns exprs then
        let projection_columns := exprs.map fun p => exprColumn p.1
        let projection_requires :=
          required.map fun c => projection_columns.getD c.index ⟨ "", 0⟩
        if (collect_columns_in_plan_schema input).all
            (fun ic => projection_requires.contains ic) then
          let new_mapping := required.filterMap fun c =>
            if c ≠ projection_columns.getD c.index ⟨ "", 0⟩ then
              some (c, projection_columns.getD c.index ⟨ "", 0⟩)
            else none
          some (.mk child.plan projection_requires new_mapping child.children_nodes)
        else none
      else none
    | _, _ => none

/-- Output columns of a projection, one per (expression, alias) pair:
`Column::new(alias, position)`. -/
def output_columns_of_projection (exprs : List (PhysicalExpr × String)) : List Column :=
  exprs.enum.map fun pr => ⟨pr.2.2, pr.1⟩

/-- Mirror of `try_narrow_projection`: when some output expressions are not
required, keep only the required ones (re-indexed contiguously), record
the index shifts whose position moved, remap the node's own requirements,
and recompute the child's requirements from the surviving expressions. -/
def try_narrow_projection : ProjectionOptimizer → Option ProjectionOptimizer
  | .mk plan required mapping children =>
    match plan, children with
    | .projection exprs _input, child :: rest =>
      let outputCols := output_columns_of_projection exprs
      let usedIndices :=
        (outputCols.filter fun c => required.contains c).map fun c => c.index
      if usedIndices.length = outputCols.length then none
      else
        let newProjection := usedIndices.filterMap fun i => exprs.get? i
        let schemaMapping := usedIndices.enum.filterMap fun pr =>
          if pr.1 ≠ pr.2 then
            some (outputCols.getD pr.2 ⟨ "", 0⟩, outputCols.getD pr.1 ⟨ "", 0⟩)
          else none
        let newRequires := required.map fun c => (mapping_get schemaMapping c).getD c
        let newChildRequired := required.flatMap fun c =>
          collect_columns
            (newProjection.getD c.index (PhysicalExpr.literal DataType.int64, "")).1
        some (.mk (.projection newProjection child.plan) newRequires schemaMapping
          (.mk child.plan newChildRequired child.schema_mapping child.children_nodes
            :: rest))
    | _, _ => none

/-- Mirror of `try_projected_csv`: embeds a projection of bare, unaliased columns
into its `CsvExec` input by rewriting the source's column-selection list;
the produced source node carries no requirements, no schema mapping and no
children ("sources cannot have a mapping"). -/
def try_projected_csv : ProjectionOptimizer → Option ProjectionOptimizer
  | .mk plan _required _mapping _children =>
    match plan with
    | .projection exprs (.csv fileSchema srcProj) =>
      if all_alias_free_columns exprs then
        let projection_columns := exprs.map fun p => exprColumn p.1
        some (.mk
          (.csv fileSchema (some (new_projections_for_columns projection_columns srcProj)))
          [] [] [])
      else none
    | _ => none

/-- Mirror of `analyze_requirements`: one (column, is-required) entry per column of
the node's output schema. -/
def analyze_requirements (node : ProjectionOptimizer) : List (Column × Bool) :=
  (collect_columns_in_plan_schema node.plan).map fun c =>
    (c, node.required_columns.contains c)

/-- Mirror of `all_columns_required`. -/
def all_columns_required (rm : List (Column × Bool)) : Bool :=
  rm.all fun p => p.2

/-- The used columns of a requirement map, as the `filter_map` in
`insert_projection` collects them. -/
def used_columns_of (rm : List (Column × Bool)) : List Column :=
  rm.filterMap fun p => if p.2 then some p.1 else none

/-- The unused columns of a requirement map (the other half of the same
`filter_map`). -/
def unused_columns_of (rm : List (Column × Bool)) : List Column :=
  rm.filterMap fun p => if p.2 then none else some p.1

/-- Sort key of a projected (expression, alias) pair: the column's index
(`expr.as_any().downcast_ref::<Column>().unwrap().index()`). -/
def expr_sort_key (p : PhysicalExpr × String) : Nat :=
  (exprColumn p.1).index

/-- The stable by-key sort `projected_exprs.sort_by_key(...)` performed by
every projection-insertion helper. -/
def sort_projected_exprs (l : List (PhysicalExpr × String)) :
    List (PhysicalExpr × String) :=
  List.insertionSort (fun a b => expr_sort_key a ≤ expr_sort_key b) l

/-- The pruning-projection expression list built (identically) by
`insert_projection`, `insert_multi_projection_below_union` and
`insert_projection_below_single_child`: one self-aliased bare column per
used requirement, sorted by column index. -/
def projected_exprs_of (rm : List (Column × Bool)) : List (PhysicalExpr × String) :=
  sort_projected_exprs ((used_columns_of rm).map fun c => (PhysicalExpr.column c, c.name))

/-- How many unused columns sit strictly below the given index — the
`skipped_columns` counter of the `new_mapping` loops. -/
def skipped_below (unused : List Column) (i : Nat) : Nat :=
  (unused.filter fun u => u.index < i).length

/-- The `new_mapping` loop shared by the projection-insertion helpers: one
entry per iterated column whose index shrinks by at least one skipped
unused column. -/
def index_shift_mapping (cols : List Column) (unused : List Column) :
    List (Column × Column) :=
  cols.filterMap fun c =>
    if 0 < skipped_below unused c.index then
      some (c, ⟨c.name, c.index - skipped_below unused c.index⟩)
    else none

/-- Mirror of `insert_projection`: wraps the node's (single) input in a pruning
projection of the used columns and returns the new subtree plus the
index-shift mapping computed over `self.required_columns`. -/
def insert_projection (node : ProjectionOptimizer) (rm : List (Column × Bool)) :
    Option (ProjectionOptimizer × List (Column × Column)) :=
  match node.plan.children with
  | childPlan :: _ =>
    let inserted : Plan := .projection (projected_exprs_of rm) childPlan
    let new_mapping := index_shift_mapping node.required_columns (unused_columns_of rm)
    some (.mk inserted (collect_columns_in_plan_schema inserted) []
      node.children_nodes, new_mapping)
  | [] => none

/-- Mirror of `insert_multi_projection_below_union`: applies the same pruning
projection template below every child branch. -/
def insert_multi_projection_below_union (node : ProjectionOptimizer)
    (rm : List (Column × Bool)) :
    Option (List ProjectionOptimizer × List (Column × Column)) :=
  let inserted_plans :=
    node.plan.children.map fun childPlan => Plan.projection (projected_exprs_of rm) childPlan
  let new_mapping := index_shift_mapping node.required_columns (unused_columns_of rm)
  some ((inserted_plans.zip node.children_nodes).map fun pr =>
    .mk pr.1 (collect_columns_in_plan_schema pr.1) [] [pr.2], new_mapping)

/-- Mirror of `insert_projection_below_single_child`: as `insert_projection`, below
the chosen join child; its index-shift mapping iterates the kept
(projected) columns instead of `self.required_columns`. -/
def insert_projection_below_single_child (node : ProjectionOptimizer)
    (rm : List (Column × Bool)) (children_index : Nat) :
    Option (ProjectionOptimizer × List (Column × Column)) :=
  match node.plan.children.get? children_index,
      node.children_nodes.get? children_index with
  | some childPlan, some childNode =>
    let projected := projected_exprs_of rm
    let inserted : Plan := .projection projected childPlan
    let kept := projected.map fun p => exprColumn p.1
    let new_mapping := index_shift_mapping kept (unused_columns_of rm)
    some (.mk inserted (collect_columns_in_plan_schema inserted) [] [childNode],
      new_mapping)
  | _, _ => none

/-- Mirror of `try_insert_below_global_limit`: the pruning decision is the literal
`if true` of the source (the intended condition
`all_columns_required(&requirement_map)` is commented out there), so the
first branch — pass the requirements to the child unchanged — is always
taken and the `else` branch that would insert a pruning projection is
dead code, kept here verbatim. -/
def try_insert_below_global_limit (node : ProjectionOptimizer) :
    Option ProjectionOptimizer :=
  match node.plan with
  | .globalLimit skip fetch _ =>
    let rm := analyze_requirements node
    if true then
      some (.mk node.plan [] node.schema_mapping
        (match node.children_nodes with
         | child :: rest =>
             .mk child.plan node.required_columns child.schema_mapping
               child.children_nodes :: rest
         | [] => []))
    else
      (insert_projection node rm).map fun pr =>
        .mk (.globalLimit skip fetch pr.1.plan) [] pr.2 [pr.1]
  | _ => none

/-- Mirror of `try_insert_below_local_limit`: passes requirements through when all
columns are required, otherwise inserts the pruning projection below and
rebuilds the limit over it with the fresh mapping. -/
def try_insert_below_local_limit (node : ProjectionOptimizer) :
    Option ProjectionOptimizer :=
  match node.plan with
  | .localLimit fetch _ =>
    let rm := analyze_requirements node
    if all_columns_required rm then
      some (.mk node.plan [] node.schema_mapping
        (match node.children_nodes with
         | child :: rest =>
             .mk child.plan node.required_columns child.schema_mapping
               child.children_nodes :: rest
         | [] => []))
    else
      (insert_projection node rm).map fun pr =>
        .mk (.localLimit fetch pr.1.plan) [] pr.2 [pr.1]
  | _ => none

/-- The `new_filter` column-index rewrite that appears verbatim in
`rewrite_hash_join`, `rewrite_nested_loop_join` and
`rewrite_sort_merge_join`: each join-filter `ColumnIndex` is looked up in
the combined child mapping (right-side indices offset by the left child's
width) and re-indexed — and both match arms tag the result with
`JoinSide::Left`, the `Right` arm included. -/
def rewrite_join_filter_column_indices (mapping : List (Column × Column))
    (left_size : Nat) (column_indices : List ColumnIndex) : List ColumnIndex :=
  column_indices.map fun ci =>
    match ci.side with
    | .left =>
        ⟨((mapping.find? fun pr => pr.1.index == ci.index).map
            fun pr => pr.2.index).getD ci.index,
          JoinSide.left⟩
    | .right =>
        ⟨((mapping.find? fun pr => pr.1.index == ci.index + left_size).map
            fun pr => pr.2.index).getD ci.index,
          JoinSide.left⟩

/-- Bool form of "the projected expression list is strictly ascending in
column index". -/
def strictly_ascending_indices : List (PhysicalExpr × String) → Bool
  | [] => true
  | [_] => true
  | a :: b :: l =>
      decide (expr_sort_key a < expr_sort_key b) && strictly_ascending_indices (b :: l)

/-- A two-column CSV source (columns a, b) used by the concrete
evaluations below. -/
def csvAB : Plan :=
  Plan.csv [⟨ "a", DataType.int64⟩, ⟨ "b", DataType.int64⟩] (some [0, 1])

/-- The four-column CSV file schema of the push-into-source scenario. -/
def fileSchemaABCD : List SchemaField :=
  [⟨ "a", DataType.int64⟩, ⟨ "b", DataType.utf8⟩, ⟨ "c", DataType.int64⟩,
    ⟨ "d", DataType.float64⟩]

instance : IsTotal (PhysicalExpr × String)
    (fun a b => expr_sort_key a ≤ expr_sort_key b) :=
  ⟨fun a b => Nat.le_total _ _⟩

instance : IsTrans (PhysicalExpr × String)
    (fun a b => expr_sort_key a ≤ expr_sort_key b) :=
  ⟨fun a b c hab hbc => Nat.le_trans hab hbc⟩

/-! Theorems.  First a few helper lemmas shared by several claims, then
one theorem per claim (with a closed witness where the claim theorem
carries hypotheses). -/

theorem new_projections_for_columns_none (projection : List Column) :
    new_projections_for_columns projection none = [] := by
  induction projection with
  | nil => rfl
  | cons c l ih =>
      simp [new_projections_for_columns, List.filterMap_cons]

theorem new_projections_for_columns_some (projection : List Column)
    (proj : List Nat) :
    new_projections_for_columns projection (some proj) =
      projection.map fun col => proj.getD col.index 0 := by
  induction projection with
  | nil => rfl
  | cons c l ih =>
      simpa [new_projections_for_columns, List.filterMap_cons] using ih

/-- Claim C2: during bottom-up reconciliation of hash-join,
sort-merge-join and nested-loop-join nodes, every join-filter column
index tagged `Right` is claimed to keep the `Right` tag after its index
is remapped.  Evaluating the shared filter rewrite of `rewrite_hash_join`
/ `rewrite_nested_loop_join` / `rewrite_sort_merge_join` at a
right-tagged entry (mapping b@1 to b@0 over a left width of 1) shows the
entry is remapped but comes out tagged `Left`: the code loses the `Right`
tag, contradicting the claim. -/
theorem claim_c2_right_tag_becomes_left :
    rewrite_join_filter_column_indices [(⟨ "b", 1⟩, ⟨ "b", 0⟩)] 1
        [⟨0, JoinSide.right⟩] = [⟨0, JoinSide.left⟩]
      ∧ JoinSide.left ≠ JoinSide.right :=
  ⟨rfl, by decide⟩

/-- Claim C3: both limit operators are claimed to insert a pruning
projection below themselves whenever some output column is unused.  At a
global limit over the two-column source with only a@0 required, the
requirement map does flag an unused column, yet
`try_insert_below_global_limit` returns the limit unchanged with the
requirements passed to the child — its pruning branch is dead code
(`if true` with the intended condition commented out in the source) —
while `try_insert_below_local_limit` on the same shape does insert the
pruning projection trimmed to a@0. -/
theorem claim_c3_global_limit_dead_pruning_branch :
    ((analyze_requirements
        (.mk (Plan.globalLimit 0 (some 5) csvAB) [⟨ "a", 0⟩] []
          [.mk csvAB [] [] []])).any fun p => !p.2) = true
    ∧ try_insert_below_global_limit
        (.mk (Plan.globalLimit 0 (some 5) csvAB) [⟨ "a", 0⟩] []
          [.mk csvAB [] [] []])
      = some (.mk (Plan.globalLimit 0 (some 5) csvAB) [] []
          [.mk csvAB [⟨ "a", 0⟩] [] []])
    ∧ (try_insert_below_local_limit
        (.mk (Plan.localLimit 5 csvAB) [⟨ "a", 0⟩] []
          [.mk csvAB [] [] []])).map (fun n => n.plan)
      = some (Plan.localLimit 5
          (Plan.projection [(PhysicalExpr.column ⟨ "a", 0⟩, "a")] csvAB)) :=
  ⟨rfl, rfl, rfl⟩

/-- Claim C9: pushing a projection into a CSV source whose file-scan
configuration carries no pre-existing column-selection list installs an
empty selection list: the rewritten source selects zero columns, not the
columns named by the deleted projection. -/
theorem claim_c9_none_selection_becomes_empty (node : ProjectionOptimizer)
    (exprs : List (PhysicalExpr × String)) (fs : List SchemaField)
    (hplan : node.plan = Plan.projection exprs (Plan.csv fs none))
    (hfree : all_alias_free_columns exprs = true) :
    try_projected_csv node = some (.mk (Plan.csv fs (some [])) [] [] []) := by
  cases node with
  | mk plan required mapping children =>
    simp only [ProjectionOptimizer.plan] at hplan
    subst hplan
    simp [try_projected_csv, hfree, new_projections_for_columns_none]

theorem claim_c9_witness :
    all_alias_free_columns [(PhysicalExpr.column ⟨ "b", 1⟩, "b")] = true
    ∧ try_projected_csv
        (.mk (Plan.projection [(PhysicalExpr.column ⟨ "b", 1⟩, "b")]
          (Plan.csv [⟨ "a", DataType.int64⟩, ⟨ "b", DataType.int64⟩] none))
          [] [] [])
      = some (.mk
          (Plan.csv [⟨ "a", DataType.int64⟩, ⟨ "b", DataType.int64⟩] (some []))
          [] [] []) :=
  ⟨rfl,
    claim_c9_none_selection_becomes_empty
      (.mk (Plan.projection [(PhysicalExpr.column ⟨ "b", 1⟩, "b")]
        (Plan.csv [⟨ "a", DataType.int64⟩, ⟨ "b", DataType.int64⟩] none))
        [] [] [])
      [(PhysicalExpr.column ⟨ "b", 1⟩, "b")]
      [⟨ "a", DataType.int64⟩, ⟨ "b", DataType.int64⟩] rfl rfl⟩

/-- Claim C6: a projection of bare, unaliased columns over a
column-selecting CSV source is deleted and the source's selection list is
rewritten to read exactly the projected columns, in the projection's
order; the produced source node has no schema mapping, no requirements
and no children (no projection operator remains). -/
theorem claim_c6_push_into_csv (node : ProjectionOptimizer)
    (exprs : List (PhysicalExpr × String)) (fs : List SchemaField)
    (srcProj : List Nat)
    (hplan : node.plan = Plan.projection exprs (Plan.csv fs (some srcProj)))
    (hfree : all_alias_free_columns exprs = true) :
    try_projected_csv node =
      some (.mk
        (Plan.csv fs (some (exprs.map fun p => srcProj.getD (exprColumn p.1).index 0)))
        [] [] []) := by
  cases node with
  | mk plan required mapping children =>
    simp only [ProjectionOptimizer.plan] at hplan
    subst hplan
    simp [try_projected_csv, hfree, new_projections_for_columns_some,
      List.map_map, Function.comp]

theorem claim_c6_witness :
    all_alias_free_columns
        [(PhysicalExpr.column ⟨ "b", 2⟩, "b"), (PhysicalExpr.column ⟨ "d", 0⟩, "d")]
      = true
    ∧ try_projected_csv
        (.mk (Plan.projection
          [(PhysicalExpr.column ⟨ "b", 2⟩, "b"), (PhysicalExpr.column ⟨ "d", 0⟩, "d")]
          (Plan.csv fileSchemaABCD (some [3, 0, 1])))
          [] [] [])
      = some (.mk (Plan.csv fileSchemaABCD (some [1, 3])) [] [] [])
    ∧ (Plan.csv fileSchemaABCD (some [3, 0, 1])).schema
      = [⟨ "d", DataType.float64⟩, ⟨ "a", DataType.int64⟩, ⟨ "b", DataType.utf8⟩]
    ∧ (Plan.csv fileSchemaABCD (some [1, 3])).schema
      = [⟨ "b", DataType.utf8⟩, ⟨ "d", DataType.float64⟩] :=
  ⟨rfl,
    claim_c6_push_into_csv
      (.mk (Plan.projection
        [(PhysicalExpr.column ⟨ "b", 2⟩, "b"), (PhysicalExpr.column ⟨ "d", 0⟩, "d")]
        (Plan.csv fileSchemaABCD (some [3, 0, 1])))
        [] [] [])
      [(PhysicalExpr.column ⟨ "b", 2⟩, "b"), (PhysicalExpr.column ⟨ "d", 0⟩, "d")]
      fileSchemaABCD [3, 0, 1] rfl rfl,
    rfl, rfl⟩

/-- Claim C4: two stacked projections are never unified into one when the
upper projection references some output column of the lower projection
more than once and the lower projection's expression for that column is
neither a bare column reference nor a constant: the
`caching_projections` guard trips, and `try_unifying_projections`
answers `Transformed::No` without building a merged projection. -/
theorem claim_c4_caching_guard_blocks_unification (node : ProjectionOptimizer)
    (pExprs cExprs : List (PhysicalExpr × String)) (ginput : Plan) (col : Column)
    (hplan : node.plan = Plan.projection pExprs (Plan.projection cExprs ginput))
    (hcount : 1 < ((pExprs.map Prod.fst).flatMap column_occurrences).count col)
    (hnontrivial :
      is_expr_trivial
        (cExprs.getD col.index (PhysicalExpr.literal DataType.int64, "")).1 = false) :
    try_unifying_projections node = none := by
  have hmem : col ∈ (pExprs.map Prod.fst).flatMap column_occurrences := by
    have h0 : 0 < ((pExprs.map Prod.fst).flatMap column_occurrences).count col :=
      Nat.lt_trans Nat.zero_lt_one hcount
    exact List.count_pos_iff.mp h0
  have hguard : caching_projections pExprs cExprs = true := by
    simp only [caching_projections]
    rw [List.any_eq_true]
    refine ⟨col, hmem, ?_⟩
    rw [Bool.and_eq_true]
    exact ⟨decide_eq_true hcount, by rw [Bool.not_eq_true']; exact hnontrivial⟩
  cases node with
  | mk plan required mapping children =>
    simp only [ProjectionOptimizer.plan] at hplan
    subst hplan
    simp [try_unifying_projections, hguard]

theorem claim_c4_witness :
    1 < (([(PhysicalExpr.binary "+" (PhysicalExpr.column ⟨ "x", 0⟩)
            (PhysicalExpr.column ⟨ "x", 0⟩), "y")].map Prod.fst).flatMap
          column_occurrences).count ⟨ "x", 0⟩
    ∧ try_unifying_projections
        (.mk (Plan.projection
          [(PhysicalExpr.binary "+" (PhysicalExpr.column ⟨ "x", 0⟩)
            (PhysicalExpr.column ⟨ "x", 0⟩), "y")]
          (Plan.projection
            [(PhysicalExpr.binary "+" (PhysicalExpr.column ⟨ "a", 0⟩)
              (PhysicalExpr.literal DataType.int64), "x")] csvAB))
          [] []
          [.mk (Plan.projection
            [(PhysicalExpr.binary "+" (PhysicalExpr.column ⟨ "a", 0⟩)
              (PhysicalExpr.literal DataType.int64), "x")] csvAB)
            [] [] [.mk csvAB [] [] []]])
      = none :=
  ⟨by decide,
    claim_c4_caching_guard_blocks_unification
      (.mk (Plan.projection
        [(PhysicalExpr.binary "+" (PhysicalExpr.column ⟨ "x", 0⟩)
          (PhysicalExpr.column ⟨ "x", 0⟩), "y")]
        (Plan.projection
          [(PhysicalExpr.binary "+" (PhysicalExpr.column ⟨ "a", 0⟩)
            (PhysicalExpr.literal DataType.int64), "x")] csvAB))
        [] []
        [.mk (Plan.projection
          [(PhysicalExpr.binary "+" (PhysicalExpr.column ⟨ "a", 0⟩)
            (PhysicalExpr.literal DataType.int64), "x")] csvAB)
          [] [] [.mk csvAB [] [] []]])
      [(PhysicalExpr.binary "+" (PhysicalExpr.column ⟨ "x", 0⟩)
        (PhysicalExpr.column ⟨ "x", 0⟩), "y")]
      [(PhysicalExpr.binary "+" (PhysicalExpr.column ⟨ "a", 0⟩)
        (PhysicalExpr.literal DataType.int64), "x")]
      csvAB ⟨ "x", 0⟩ rfl (by decide) rfl⟩

/-- Claim C5: the top-down pass removes a projection — replacing it with
its child — only when every output expression is a bare column reference
whose alias equals the source column name, and the columns required from
the projection by its parent, translated through the projection, cover
every column of the child's full output schema; on removal, the recorded
schema mapping holds exactly one entry per required column whose
translated identity moved, and a required column whose identity is
unchanged is absent from the mapping. -/
theorem claim_c5_remove_projection_conditions
    (node res child : ProjectionOptimizer) (rest : List ProjectionOptimizer)
    (exprs : List (PhysicalExpr × String)) (input : Plan)
    (hplan : node.plan = Plan.projection exprs input)
    (hchildren : node.children_nodes = child :: rest)
    (h : try_remove_projection node = some res) :
    all_alias_free_columns exprs = true
    ∧ (∀ ic ∈ collect_columns_in_plan_schema input,
        ic ∈ node.required_columns.map fun c =>
          (exprs.map fun p => exprColumn p.1).getD c.index ⟨ "", 0⟩)
    ∧ res.plan = child.plan
    ∧ res.schema_mapping = (node.required_columns.filterMap fun c =>
        if c ≠ (exprs.map fun p => exprColumn p.1).getD c.index ⟨ "", 0⟩ then
          some (c, (exprs.map fun p => exprColumn p.1).getD c.index ⟨ "", 0⟩)
        else none)
    ∧ (∀ c ∈ node.required_columns,
        c = (exprs.map fun p => exprColumn p.1).getD c.index ⟨ "", 0⟩ →
          ∀ pr ∈ res.schema_mapping, pr.1 ≠ c) := by
  cases node with
  | mk plan required mapping children =>
    simp only [ProjectionOptimizer.plan] at hplan
    simp only [ProjectionOptimizer.children_nodes] at hchildren
    subst hplan
    subst hchildren
    simp only [ProjectionOptimizer.required_columns]
    simp only [try_remove_projection] at h
    split at h
    case isTrue h1 =>
      split at h
      case isTrue h2 =>
        rw [Option.some.injEq] at h
        subst h
        refine ⟨h1, ?_, rfl, rfl, ?_⟩
        · intro ic hic
          have hc := List.all_eq_true.mp h2 ic hic
          exact List.elem_iff.mp hc
        · intro c hc hcid pr hpr
          simp only [ProjectionOptimizer.schema_mapping] at hpr
          rcases List.mem_filterMap.mp hpr with ⟨a, ha, hfa⟩
          by_cases hga : a = (exprs.map fun p => exprColumn p.1).getD a.index ⟨ "", 0⟩
          · rw [if_neg (not_not_intro hga)] at hfa
            exact Option.noConfusion hfa
          · simp only [ne_eq, hga, not_false_eq_true, if_true, Option.some.injEq] at hfa
            intro h1c
            apply hga
            have hpa : pr.1 = a := by rw [← hfa]
            rw [← hpa, h1c] at hga ⊢
            exact hcid
      case isFalse hf => exact Option.noConfusion h
    case isFalse hf => exact Option.noConfusion h

theorem claim_c5_witness :
    all_alias_free_columns
        [(PhysicalExpr.column ⟨ "b", 1⟩, "b"), (PhysicalExpr.column ⟨ "a", 0⟩, "a")]
      = true :=
  (claim_c5_remove_projection_conditions
    (.mk (Plan.projection
        [(PhysicalExpr.column ⟨ "b", 1⟩, "b"), (PhysicalExpr.column ⟨ "a", 0⟩, "a")]
        csvAB)
      [⟨ "b", 0⟩, ⟨ "a", 1⟩] [] [.mk csvAB [] [] []])
    (.mk csvAB [⟨ "b", 1⟩, ⟨ "a", 0⟩]
      [(⟨ "b", 0⟩, ⟨ "b", 1⟩), (⟨ "a", 1⟩, ⟨ "a", 0⟩)] [])
    (.mk csvAB [] [] []) []
    [(PhysicalExpr.column ⟨ "b", 1⟩, "b"), (PhysicalExpr.column ⟨ "a", 0⟩, "a")]
    csvAB rfl rfl rfl).1

theorem nodup_lt_length_le (l : List Nat) (n : Nat) (hn : l.Nodup)
    (hall : ∀ x ∈ l, x < n) : l.length ≤ n := by
  classical
  have hsub : l.toFinset ⊆ Finset.range n := by
    intro x hx
    rw [List.mem_toFinset] at hx
    exact Finset.mem_range.mpr (hall x hx)
  have hcard := Finset.card_le_card hsub
  rwa [List.toFinset_card_of_nodup hn, Finset.card_range] at hcard

theorem unused_columns_indices_sublist (rm : List (Column × Bool)) :
    ((unused_columns_of rm).map Column.index).Sublist
      (rm.map fun p => p.1.index) := by
  induction rm with
  | nil => simp [unused_columns_of]
  | cons p tl ih =>
    cases hb : p.2 with
    | true =>
        simpa [unused_columns_of, hb, List.filterMap_cons] using ih.cons p.1.index
    | false =>
        simpa [unused_columns_of, hb, List.filterMap_cons] using ih.cons₂ p.1.index

theorem used_columns_indices_sublist (rm : List (Column × Bool)) :
    ((used_columns_of rm).map Column.index).Sublist
      (rm.map fun p => p.1.index) := by
  induction rm with
  | nil => simp [used_columns_of]
  | cons p tl ih =>
    cases hb : p.2 with
    | true =>
        simpa [used_columns_of, hb, List.filterMap_cons] using ih.cons₂ p.1.index
    | false =>
        simpa [used_columns_of, hb, List.filterMap_cons] using ih.cons p.1.index

theorem skipped_below_le (unused : List Column) (i : Nat)
    (hnodup : (unused.map Column.index).Nodup) : skipped_below unused i ≤ i := by
  have hsub : ((unused.filter fun u => u.index < i).map Column.index).Sublist
      (unused.map Column.index) := (List.filter_sublist _).map _
  have hnd := hnodup.sublist hsub
  have hall : ∀ x ∈ (unused.filter fun u => u.index < i).map Column.index, x < i := by
    intro x hx
    rcases List.mem_map.mp hx with ⟨u, hu, hux⟩
    have hdec := List.of_mem_filter hu
    subst hux
    exact of_decide_eq_true hdec
  have hlen := nodup_lt_length_le _ _ hnd hall
  simpa [skipped_below] using hlen

theorem index_shift_mapping_entries (cols unused : List Column)
    (hnodup : (unused.map Column.index).Nodup) :
    ∀ pr ∈ index_shift_mapping cols unused,
      pr.2.index < pr.1.index ∧ pr.1 ≠ pr.2 := by
  intro pr hpr
  rcases List.mem_filterMap.mp hpr with ⟨c, hc, hfc⟩
  by_cases hpos : 0 < skipped_below unused c.index
  · rw [if_pos hpos, Option.some.injEq] at hfc
    subst hfc
    have hle := skipped_below_le unused c.index hnodup
    have hlt : c.index - skipped_below unused c.index < c.index :=
      Nat.sub_lt (Nat.lt_of_lt_of_le hpos hle) hpos
    refine ⟨hlt, ?_⟩
    intro he
    have hix : c.index = c.index - skipped_below unused c.index :=
      congrArg Column.index he
    omega
  · rw [if_neg hpos] at hfc
    exact Option.noConfusion hfc

theorem index_shift_mapping_absent (cols unused : List Column) (c : Column)
    (hzero : skipped_below unused c.index = 0) :
    ∀ pr ∈ index_shift_mapping cols unused, pr.1 ≠ c := by
  intro pr hpr
  rcases List.mem_filterMap.mp hpr with ⟨a, ha, hfa⟩
  by_cases hpos : 0 < skipped_below unused a.index
  · rw [if_pos hpos, Option.some.injEq] at hfa
    subst hfa
    intro he
    have hac : a = c := he
    rw [hac] at hpos
    omega
  · rw [if_neg hpos] at hfa
    exact Option.noConfusion hfa

theorem mem_enumFrom_cols_index (exprs : List (PhysicalExpr × String)) :
    ∀ n c, c ∈ ((List.enumFrom n exprs).map fun pr => (⟨pr.2.2, pr.1⟩ : Column)) →
      n ≤ c.index ∧ c.index < n + exprs.length := by
  induction exprs with
  | nil =>
    intro n c h
    simp [List.enumFrom] at h
  | cons e tl ih =>
    intro n c h
    simp only [List.enumFrom, List.map_cons, List.mem_cons] at h
    rcases h with h | h
    · subst h
      exact ⟨Nat.le_refl _, Nat.lt_add_of_pos_right (Nat.succ_pos _)⟩
    · obtain ⟨h1, h2⟩ := ih (n + 1) c h
      constructor <;> [omega; (simp only [List.length_cons]; omega)]

theorem enumFrom_cols_getD_index (exprs : List (PhysicalExpr × String)) :
    ∀ n i, i < exprs.length →
      ((((List.enumFrom n exprs).map fun pr => (⟨pr.2.2, pr.1⟩ : Column))).getD i
        ⟨ "", 0⟩).index = n + i := by
  induction exprs with
  | nil =>
    intro n i h
    exact absurd h (Nat.not_lt_zero i)
  | cons e tl ih =>
    intro n i h
    cases i with
    | zero => simp [List.enumFrom]
    | succ j =>
      have hj : j < tl.length := Nat.lt_of_succ_lt_succ h
      simp only [List.enumFrom, List.map_cons, List.getD_cons_succ]
      rw [ih (n + 1) j hj]
      omega

theorem mem_enumFrom_bounds (l : List Nat) :
    ∀ n q, q ∈ List.enumFrom n l →
      q.1 < n + l.length ∧ q.2 ∈ l := by
  induction l with
  | nil =>
    intro n q h
    simp [List.enumFrom] at h
  | cons x tl ih =>
    intro n q h
    simp only [List.enumFrom, List.mem_cons] at h
    rcases h with h | h
    · subst h
      refine ⟨Nat.lt_add_of_pos_right (Nat.succ_pos _), List.mem_cons_self _ _⟩
    · obtain ⟨h1, h2⟩ := ih (n + 1) q h
      refine ⟨by simp only [List.length_cons]; omega, List.mem_cons_of_mem _ h2⟩

theorem output_columns_length (exprs : List (PhysicalExpr × String)) :
    (output_columns_of_projection exprs).length = exprs.length := by
  simp [output_columns_of_projection, List.enum_length]

/-- Claim C7: every schema mapping produced by inserting a pruning
projection, narrowing a projection, or removing a projection contains an
entry only for columns whose position actually changed: in every recorded
(old, new) pair old differs from new (for the insertion and narrowing
mappings even the ordinal index differs), and a column whose position or
identity is unchanged is absent from the mapping, absence meaning
identity. -/
theorem claim_c7_schema_mappings_nonidentity :
    (∀ node rm res m, insert_projection node rm = some (res, m) →
      (rm.map fun p => p.1.index).Nodup →
        (∀ pr ∈ m, pr.2.index < pr.1.index ∧ pr.1 ≠ pr.2)
        ∧ (∀ c ∈ node.required_columns,
            skipped_below (unused_columns_of rm) c.index = 0 →
              ∀ pr ∈ m, pr.1 ≠ c))
    ∧ (∀ node res, try_narrow_projection node = some res →
        ∀ pr ∈ res.schema_mapping, pr.1.index ≠ pr.2.index ∧ pr.1 ≠ pr.2)
    ∧ (∀ node res, try_remove_projection node = some res →
        ∀ pr ∈ res.schema_mapping, pr.1 ≠ pr.2) := by
  refine ⟨?_, ?_, ?_⟩
  · intro node rm res m h hnodup
    cases node with
    | mk plan required mapping children =>
      simp only [insert_projection] at h
      split at h
      case h_2 => exact Option.noConfusion h
      case h_1 childPlan restPlans heq =>
        rw [Option.some.injEq, Prod.mk.injEq] at h
        obtain ⟨hres, hm⟩ := h
        subst hm
        have hnd : ((unused_columns_of rm).map Column.index).Nodup :=
          hnodup.sublist (unused_columns_indices_sublist rm)
        simp only [ProjectionOptimizer.required_columns]
        refine ⟨index_shift_mapping_entries _ _ hnd, ?_⟩
        intro c hc hzero
        exact index_shift_mapping_absent _ _ c hzero
  · intro node res h pr hpr
    cases node with
    | mk plan required mapping children =>
      simp only [try_narrow_projection] at h
      split at h
      case h_2 => exact Option.noConfusion h
      case h_1 exprs _input child rest =>
        split at h
        case isTrue => exact Option.noConfusion h
        case isFalse hlen =>
          rw [Option.some.injEq] at h
          subst h
          simp only [ProjectionOptimizer.schema_mapping] at hpr
          rcases List.mem_filterMap.mp hpr with ⟨q, hq, hfq⟩
          by_cases hne : q.1 = q.2
          · rw [if_neg (not_not_intro hne)] at hfq
            exact Option.noConfusion hfq
          · rw [if_pos hne, Option.some.injEq] at hfq
            subst hfq
            have hqb := mem_enumFrom_bounds _ 0 q hq
            obtain ⟨hq1, hq2⟩ := hqb
            have hq2lt : q.2 < exprs.length := by
              rcases List.mem_map.mp hq2 with ⟨u, hu, hux⟩
              have humem := List.mem_of_mem_filter hu
              have hub := mem_enumFrom_cols_index exprs 0 u humem
              omega
            have hq1lt : q.1 < exprs.length := by
              have hle : ((output_columns_of_projection exprs).filter fun c =>
                  required.contains c).length ≤
                    (output_columns_of_projection exprs).length :=
                List.length_filter_le _ _
              rw [output_columns_length] at hle
              simp only [List.length_map] at hq1
              omega
            have hidx2 : ((output_columns_of_projection exprs).getD q.2
                ⟨ "", 0⟩).index = 0 + q.2 :=
              enumFrom_cols_getD_index exprs 0 q.2 hq2lt
            have hidx1 : ((output_columns_of_projection exprs).getD q.1
                ⟨ "", 0⟩).index = 0 + q.1 :=
              enumFrom_cols_getD_index exprs 0 q.1 hq1lt
            constructor
            · intro he
              rw [hidx1, hidx2] at he
              omega
            · intro he
              have := congrArg Column.index he
              rw [hidx1, hidx2] at this
              omega
  · intro node res h pr hpr
    cases node with
    | mk plan required mapping children =>
      simp only [try_remove_projection] at h
      split at h
      case h_2 => exact Option.noConfusion h
      case h_1 exprs input child rest =>
        split at h
        case isFalse => exact Option.noConfusion h
        case isTrue hfree =>
          split at h
          case isFalse => exact Option.noConfusion h
          case isTrue hcover =>
            rw [Option.some.injEq] at h
            subst h
            simp only [ProjectionOptimizer.schema_mapping] at hpr
            rcases List.mem_filterMap.mp hpr with ⟨a, ha, hfa⟩
            by_cases hga : a = (exprs.map fun p => exprColumn p.1).getD a.index ⟨ "", 0⟩
            · rw [if_neg (not_not_intro hga)] at hfa
              exact Option.noConfusion hfa
            · rw [if_pos hga, Option.some.injEq] at hfa
              subst hfa
              exact hga

theorem claim_c7_witness :
    (⟨ "b", 0⟩ : Column).index < (⟨ "b", 1⟩ : Column).index
    ∧ (⟨ "b", 1⟩ : Column) ≠ ⟨ "b", 0⟩ :=
  (claim_c7_schema_mappings_nonidentity.1
    (.mk (Plan.localLimit 5 csvAB) [⟨ "b", 1⟩] [] [.mk csvAB [] [] []])
    [(⟨ "a", 0⟩, false), (⟨ "b", 1⟩, true)]
    (.mk (Plan.projection [(PhysicalExpr.column ⟨ "b", 1⟩, "b")] csvAB)
      [⟨ "b", 0⟩] [] [.mk csvAB [] [] []])
    [(⟨ "b", 1⟩, ⟨ "b", 0⟩)]
    rfl (by decide)).1
    (⟨ "b", 1⟩, ⟨ "b", 0⟩) (by decide)

theorem sorted_nodup_strictly_ascending :
    ∀ l : List (PhysicalExpr × String),
      List.Sorted (fun a b => expr_sort_key a ≤ expr_sort_key b) l →
      (l.map expr_sort_key).Nodup →
      strictly_ascending_indices l = true := by
  intro l
  induction l with
  | nil => intro _ _; rfl
  | cons a tl ih =>
    intro hs hn
    cases tl with
    | nil => rfl
    | cons b tl2 =>
      rw [strictly_ascending_indices, Bool.and_eq_true]
      have hcons := List.sorted_cons.mp hs
      have hle : expr_sort_key a ≤ expr_sort_key b :=
        hcons.1 b (List.mem_cons_self _ _)
      have hne : expr_sort_key a ≠ expr_sort_key b := by
        simp only [List.map_cons, List.nodup_cons, List.mem_cons] at hn
        intro he
        exact hn.1 (Or.inl he)
      refine ⟨decide_eq_true (Nat.lt_of_le_of_ne hle hne), ?_⟩
      apply ih hcons.2
      simp only [List.map_cons, List.nodup_cons] at hn
      simp only [List.map_cons, List.nodup_cons]
      exact hn.2

theorem projected_exprs_keys_nodup (rm : List (Column × Bool))
    (hnodup : (rm.map fun p => p.1.index).Nodup) :
    ((projected_exprs_of rm).map expr_sort_key).Nodup := by
  have hbase : (((used_columns_of rm).map fun c =>
      ((PhysicalExpr.column c, c.name) : PhysicalExpr × String)).map
        expr_sort_key).Nodup := by
    rw [List.map_map]
    have hcomp : (expr_sort_key ∘ fun c =>
        ((PhysicalExpr.column c, c.name) : PhysicalExpr × String)) = Column.index := by
      funext c
      rfl
    rw [hcomp]
    exact hnodup.sublist (used_columns_indices_sublist rm)
  have hperm : (projected_exprs_of rm).Perm
      ((used_columns_of rm).map fun c => (PhysicalExpr.column c, c.name)) :=
    List.perm_insertionSort _ _
  exact (hperm.map expr_sort_key).nodup_iff.mpr hbase

/-- Claim C10: every pruning projection inserted by the top-down pass —
below single-child operators, below each branch of a union or
interleave, and below a join child — consists solely of bare column
expressions aliased with their own names, listed in strictly ascending
order of their source-schema index (so the surviving columns keep their
original relative order and names). -/
theorem claim_c10_pruning_projection_shape (rm : List (Column × Bool))
    (hnodup : (rm.map fun p => p.1.index).Nodup) :
    all_alias_free_columns (projected_exprs_of rm) = true
    ∧ strictly_ascending_indices (projected_exprs_of rm) = true
    ∧ (∀ node res m, insert_projection node rm = some (res, m) →
        ∃ childPlan, res.plan = Plan.projection (projected_exprs_of rm) childPlan)
    ∧ (∀ node resList m,
        insert_multi_projection_below_union node rm = some (resList, m) →
        ∀ r ∈ resList, ∃ childPlan,
          r.plan = Plan.projection (projected_exprs_of rm) childPlan)
    ∧ (∀ node i res m,
        insert_projection_below_single_child node rm i = some (res, m) →
        ∃ childPlan, res.plan = Plan.projection (projected_exprs_of rm) childPlan) := by
  refine ⟨?_, ?_, ?_, ?_, ?_⟩
  · rw [all_alias_free_columns, List.all_eq_true]
    intro p hp
    have hmem : p ∈ (used_columns_of rm).map fun c =>
        ((PhysicalExpr.column c, c.name) : PhysicalExpr × String) :=
      (List.perm_insertionSort _ _).mem_iff.mp hp
    rcases List.mem_map.mp hmem with ⟨c, hc, hcp⟩
    subst hcp
    simp
  · exact sorted_nodup_strictly_ascending _
      (List.sorted_insertionSort _ _) (projected_exprs_keys_nodup rm hnodup)
  · intro node res m h
    cases node with
    | mk plan required mapping children =>
      simp only [insert_projection] at h
      split at h
      case h_2 => exact Option.noConfusion h
      case h_1 childPlan restPlans heq =>
        rw [Option.some.injEq, Prod.mk.injEq] at h
        obtain ⟨hres, hm⟩ := h
        subst hres
        exact ⟨childPlan, rfl⟩
  · intro node resList m h
    cases node with
    | mk plan required mapping children =>
      simp only [insert_multi_projection_below_union, Option.some.injEq,
        Prod.mk.injEq] at h
      obtain ⟨hres, hm⟩ := h
      subst hres
      intro r hr
      rcases List.mem_map.mp hr with ⟨pr, hpr, hrpr⟩
      subst hrpr
      obtain ⟨prp, prn⟩ := pr
      have hpr1 := (List.of_mem_zip hpr).1
      rcases List.mem_map.mp hpr1 with ⟨cp, hcp, hcpe⟩
      exact ⟨cp, hcpe.symm⟩
  · intro node i res m h
    cases node with
    | mk plan required mapping children =>
      simp only [insert_projection_below_single_child] at h
      split at h
      case h_2 => exact Option.noConfusion h
      case h_1 childPlan childNode heq1 heq2 =>
        rw [Option.some.injEq, Prod.mk.injEq] at h
        obtain ⟨hres, hm⟩ := h
        subst hres
        exact ⟨childPlan, rfl⟩

theorem claim_c10_witness :
    (([((⟨ "c", 2⟩ : Column), true), ((⟨ "a", 0⟩ : Column), true),
        ((⟨ "b", 1⟩ : Column), false)]).map fun p => p.1.index).Nodup
    ∧ all_alias_free_columns (projected_exprs_of
        [(⟨ "c", 2⟩, true), (⟨ "a", 0⟩, true), (⟨ "b", 1⟩, false)]) = true
    ∧ strictly_ascending_indices (projected_exprs_of
        [(⟨ "c", 2⟩, true), (⟨ "a", 0⟩, true), (⟨ "b", 1⟩, false)]) = true :=
  ⟨by decide,
    (claim_c10_pruning_projection_shape
      [(⟨ "c", 2⟩, true), (⟨ "a", 0⟩, true), (⟨ "b", 1⟩, false)] (by decide)).1,
    (claim_c10_pruning_projection_shape
      [(⟨ "c", 2⟩, true), (⟨ "a", 0⟩, true), (⟨ "b", 1⟩, false)] (by decide)).2.1⟩
